import Mathlib

set_option maxHeartbeats 1000000

/-!
Verification development for the RISC-V SMP test firmware:
the atomic primitive layer (app/include/atomic.h), the spinlock
(app/include/smp.h), and the barrier / SMP boot coordinator
(app/src/smp.c), together with the multi-hart counter tests driven by
app/src/main.c and app/src/smp.c.

Machine words are modelled as natural numbers reduced modulo 2^32
(resp. 2^64); memory is a map from word addresses to word values.
-/

/-- Word-addressed memory: each address holds one machine word. -/
abbrev Mem := Nat → Nat

/-- Write value v at address a, leaving every other address unchanged. -/
def memUpd (m : Mem) (a v : Nat) : Mem := fun x => if x = a then v else m x

/-- The modulus 2^32 of 32-bit machine arithmetic. -/
def U32LIM : Nat := 2 ^ 32

/-- The modulus 2^64 of 64-bit machine arithmetic. -/
def U64LIM : Nat := 2 ^ 64

/-! ## Atomic primitive layer (app/include/atomic.h)

Each AMO instruction atomically replaces the word at address p and
returns the previous value.  The result is the pair
(memory after the operation, value returned in the destination register). -/

/-- amoadd.w.aqrl: atomically add val to the 32-bit word at p,
    returning the previous value (atomic_add_u32). -/
def atomic_add_u32 (m : Mem) (p val : Nat) : Mem × Nat :=
  (memUpd m p ((m p + val) % U32LIM), m p)

/-- amoswap.w.aqrl: atomically store val into the 32-bit word at p,
    returning the previous value (atomic_swap_u32). -/
def atomic_swap_u32 (m : Mem) (p val : Nat) : Mem × Nat :=
  (memUpd m p (val % U32LIM), m p)

/-- amoor.w.aqrl: atomically OR val into the 32-bit word at p,
    returning the previous value (atomic_or_u32). -/
def atomic_or_u32 (m : Mem) (p val : Nat) : Mem × Nat :=
  (memUpd m p ((m p ||| val) % U32LIM), m p)

/-- amoand.w.aqrl: atomically AND val into the 32-bit word at p,
    returning the previous value (atomic_and_u32). -/
def atomic_and_u32 (m : Mem) (p val : Nat) : Mem × Nat :=
  (memUpd m p ((m p &&& val) % U32LIM), m p)

/-- lw + fence r,rw: acquire-ordered load (atomic_load_u32). -/
def atomic_load_u32 (m : Mem) (p : Nat) : Nat := m p

/-- fence rw,w + sw: release-ordered store (atomic_store_u32). -/
def atomic_store_u32 (m : Mem) (p val : Nat) : Mem := memUpd m p (val % U32LIM)

/-- amoadd.d.aqrl: 64-bit atomic add, returning the previous value
    (atomic_add_u64). -/
def atomic_add_u64 (m : Mem) (p val : Nat) : Mem × Nat :=
  (memUpd m p ((m p + val) % U64LIM), m p)

/-- amoswap.d.aqrl: 64-bit atomic swap, returning the previous value
    (atomic_swap_u64). -/
def atomic_swap_u64 (m : Mem) (p val : Nat) : Mem × Nat :=
  (memUpd m p (val % U64LIM), m p)

/-- The lr.w.aqrl / sc.w.rl retry loop of atomic_cas_u32.

    The list scOut fixes the outcome of each store-conditional that the
    loop attempts: true means the reservation was still held and the
    store was performed, false means a spurious reservation loss.  The
    result is (memory after the call, C return value, number of lr.w
    iterations executed); none means every provided outcome was a
    spurious failure and the loop is still retrying.  Between a spurious
    failure and the retry no other hart writes the word, so the
    re-loaded value is unchanged, as in the sequential execution of the
    inline assembly. -/
def atomic_cas_u32 (m : Mem) (p expected desired : Nat) :
    List Bool → Option (Mem × Nat × Nat)
  | [] =>
    if m p ≠ expected then some (m, 0, 1) else none
  | ok :: rest =>
    if m p ≠ expected then some (m, 0, 1)
    else if ok then some (memUpd m p (desired % U32LIM), 1, 1)
    else (atomic_cas_u32 m p expected desired rest).map
      (fun r => (r.1, r.2.1, r.2.2 + 1))

/-! ## Spinlock (app/include/smp.h) -/

/-- The spinlock word: 0 = unlocked, 1 = locked. -/
structure spinlock_t where
  lock : Nat
deriving DecidableEq, Repr

/-- SPINLOCK_INIT: the unlocked state. -/
def SPINLOCK_INIT : spinlock_t := ⟨0⟩

/-- Primitive actions executed by spin_trylock, in order. -/
inductive LockEv where
  | lrRead
  | scAttempt
  | fenceRWRW
deriving DecidableEq, BEq, Repr

/-- spin_trylock: one lr.w; if the word is nonzero, fail at once;
    otherwise one sc.w attempt whose outcome scOk decides success.
    Returns (C return value, lock word after the call, trace of
    primitive actions executed). -/
def spin_trylock (lockVal : Nat) (scOk : Bool) : Bool × Nat × List LockEv :=
  if lockVal ≠ 0 then (false, lockVal, [.lrRead])
  else if scOk then (true, 1, [.lrRead, .scAttempt, .fenceRWRW])
  else (false, lockVal, [.lrRead, .scAttempt])

/-! ## SMP global state and boot protocol (app/src/smp.c) -/

/-- The barrier_t structure of app/include/smp.h. -/
structure barrier_t where
  count : Nat
  generation : Nat
  total : Nat
  lock : spinlock_t
deriving DecidableEq, Repr

/-- barrier_init: zero count and generation, record total, unlock. -/
def barrier_init (total : Nat) : barrier_t :=
  { count := 0, generation := 0, total := total, lock := SPINLOCK_INIT }

/-- The SMP globals of app/src/smp.c. -/
structure SMPState where
  smp_hart_release : Nat
  smp_harts_online : Nat
  smp_print_lock : spinlock_t
  smp_test_barrier : barrier_t
  smp_lock_counter : Nat
  smp_test_lock : spinlock_t
  smp_atomic_counter : Nat
deriving DecidableEq, Repr

/-- Fence and store actions recorded by the boot-protocol functions. -/
inductive FenceEv where
  | wmbFence
  | storeReleaseFlag (v : Nat)
deriving DecidableEq, Repr

/-- smp_init: zero the shared counters, unlock both locks, initialise
    the shared barrier for numHarts participants, then fence w,w.
    Returns the new state and the trace of fence actions. -/
def smp_init (numHarts : Nat) (s : SMPState) : SMPState × List FenceEv :=
  ({ s with
      smp_harts_online := 0,
      smp_lock_counter := 0,
      smp_atomic_counter := 0,
      smp_print_lock := SPINLOCK_INIT,
      smp_test_lock := SPINLOCK_INIT,
      smp_test_barrier := barrier_init numHarts },
   [.wmbFence])

/-- smp_release_harts: fence w,w, store 1 to smp_hart_release,
    fence w,w.  Returns the new state and the ordered action trace. -/
def smp_release_harts (s : SMPState) : SMPState × List FenceEv :=
  ({ s with smp_hart_release := 1 },
   [.wmbFence, .storeReleaseFlag 1, .wmbFence])

/-- smp_get_harts_online: atomic load of the online counter. -/
def smp_get_harts_online (s : SMPState) : Nat := s.smp_harts_online

/-! ## Operational model of barrier_wait (app/src/smp.c, lines 75-98)

Each hart runs the body of barrier_wait one primitive statement at a
time; harts interleave arbitrarily.  A hart's location records the next
statement it will execute; g is the generation value captured into the
local variable gen while the lock is held. -/

/-- Program locations inside barrier_wait. -/
inductive BLoc where
  | acqB                -- about to spin_lock(&bar->lock)
  | incB                -- holds the lock; about to bar->count++
  | rdGenB              -- about to capture gen = bar->generation
  | chkB (g : Nat)      -- about to test bar->count >= bar->total
  | rstB (g : Nat)      -- last arriver: about to bar->count = 0
  | mbB (g : Nat)       -- about to mb()
  | bmpB (g : Nat)      -- about to bar->generation++
  | relLastB (g : Nat)  -- about to spin_unlock (last-arriver branch)
  | relWaitB (g : Nat)  -- about to spin_unlock (waiter branch)
  | spinB (g : Nat)     -- spinning while bar->generation == g
  | fmbB                -- about to the final mb()
  | doneB               -- barrier_wait has returned
deriving DecidableEq, Repr

/-- Whether a hart at this location holds the barrier's internal lock. -/
def holdsLock : BLoc → Bool
  | .incB | .rdGenB | .chkB _ | .rstB _ | .mbB _ | .bmpB _
  | .relLastB _ | .relWaitB _ => true
  | _ => false

/-- Replace the location of hart i. -/
def updHart {n : Nat} {α : Type} (hs : Fin n → α) (i : Fin n) (a : α) :
    Fin n → α :=
  Function.update hs i a

/-- Global state of n harts all calling barrier_wait on one barrier. -/
structure BSys (n : Nat) where
  bar : barrier_t
  harts : Fin n → BLoc

/-- One interleaved step of some hart executing barrier_wait.  The
    spin_lock step fires only when the lock word is 0 (LR/SC lets
    exactly one contender through), and the spin-loop step fires only
    once the generation differs from the captured value. -/
inductive BStep {n : Nat} : BSys n → BSys n → Prop where
  | acq (s : BSys n) (i : Fin n) :
      s.harts i = .acqB → s.bar.lock.lock = 0 →
      BStep s ⟨{ s.bar with lock := ⟨1⟩ }, updHart s.harts i .incB⟩
  | inc (s : BSys n) (i : Fin n) :
      s.harts i = .incB →
      BStep s ⟨{ s.bar with count := (s.bar.count + 1) % U32LIM },
               updHart s.harts i .rdGenB⟩
  | rdGen (s : BSys n) (i : Fin n) :
      s.harts i = .rdGenB →
      BStep s ⟨s.bar, updHart s.harts i (.chkB s.bar.generation)⟩
  | chkLast (s : BSys n) (i : Fin n) (g : Nat) :
      s.harts i = .chkB g → s.bar.count ≥ s.bar.total →
      BStep s ⟨s.bar, updHart s.harts i (.rstB g)⟩
  | chkWait (s : BSys n) (i : Fin n) (g : Nat) :
      s.harts i = .chkB g → s.bar.count < s.bar.total →
      BStep s ⟨s.bar, updHart s.harts i (.relWaitB g)⟩
  | rst (s : BSys n) (i : Fin n) (g : Nat) :
      s.harts i = .rstB g →
      BStep s ⟨{ s.bar with count := 0 }, updHart s.harts i (.mbB g)⟩
  | mbStep (s : BSys n) (i : Fin n) (g : Nat) :
      s.harts i = .mbB g →
      BStep s ⟨s.bar, updHart s.harts i (.bmpB g)⟩
  | bmp (s : BSys n) (i : Fin n) (g : Nat) :
      s.harts i = .bmpB g →
      BStep s ⟨{ s.bar with generation := (s.bar.generation + 1) % U32LIM },
               updHart s.harts i (.relLastB g)⟩
  | relLast (s : BSys n) (i : Fin n) (g : Nat) :
      s.harts i = .relLastB g →
      BStep s ⟨{ s.bar with lock := ⟨0⟩ }, updHart s.harts i .fmbB⟩
  | relWait (s : BSys n) (i : Fin n) (g : Nat) :
      s.harts i = .relWaitB g →
      BStep s ⟨{ s.bar with lock := ⟨0⟩ }, updHart s.harts i (.spinB g)⟩
  | spinExit (s : BSys n) (i : Fin n) (g : Nat) :
      s.harts i = .spinB g → s.bar.generation ≠ g →
      BStep s ⟨s.bar, updHart s.harts i .fmbB⟩
  | fmb (s : BSys n) (i : Fin n) :
      s.harts i = .fmbB →
      BStep s ⟨s.bar, updHart s.harts i .doneB⟩

/-- Reachability along interleaved barrier_wait steps. -/
def BReach {n : Nat} (s t : BSys n) : Prop := Relation.ReflTransGen BStep s t

/-- All n harts about to call barrier_wait on a fresh barrier for
    total participants. -/
def binit (n total : Nat) : BSys n :=
  ⟨barrier_init total, fun _ => .acqB⟩

/-! ## Operational model of the spinlock counter test (C1)

Hart i runs: spin_lock(&smp_test_lock); smp_lock_counter++;
spin_unlock(&smp_test_lock) -- once (smp.c lines 195-197, main.c lines
274-276).  The unprotected increment is split into its load and store
halves; the spinlock is what makes the pair atomic. -/

/-- Program locations of one hart in the spinlock counter test. -/
inductive LLoc where
  | lstart            -- about to spin_lock(&smp_test_lock)
  | lread             -- holds the lock; about to load smp_lock_counter
  | lwrite (v : Nat)  -- about to store v + 1 to smp_lock_counter
  | lrel              -- about to spin_unlock(&smp_test_lock)
  | ldone             -- finished
deriving DecidableEq, Repr

/-- Whether a hart at this location holds smp_test_lock. -/
def lholds : LLoc → Bool
  | .lread | .lwrite _ | .lrel => true
  | _ => false

/-- Contribution of one hart location to the completed-store count. -/
def lwrote : LLoc → Nat
  | .lrel | .ldone => 1
  | _ => 0

/-- Global state of the spinlock counter test: the smp_test_lock word,
    the smp_lock_counter word, and each hart's location. -/
structure LSys (n : Nat) where
  lock : Nat
  counter : Nat
  harts : Fin n → LLoc

/-- Number of harts whose store to smp_lock_counter has completed. -/
def lwritten {n : Nat} (hs : Fin n → LLoc) : Nat :=
  ∑ i, lwrote (hs i)

/-- One interleaved step of the spinlock counter test. -/
inductive LStep {n : Nat} : LSys n → LSys n → Prop where
  | acq (s : LSys n) (i : Fin n) :
      s.harts i = .lstart → s.lock = 0 →
      LStep s ⟨1, s.counter, updHart s.harts i .lread⟩
  | read (s : LSys n) (i : Fin n) :
      s.harts i = .lread →
      LStep s ⟨s.lock, s.counter, updHart s.harts i (.lwrite s.counter)⟩
  | write (s : LSys n) (i : Fin n) (v : Nat) :
      s.harts i = .lwrite v →
      LStep s ⟨s.lock, (v + 1) % U32LIM, updHart s.harts i .lrel⟩
  | rel (s : LSys n) (i : Fin n) :
      s.harts i = .lrel →
      LStep s ⟨0, s.counter, updHart s.harts i .ldone⟩

/-- Reachability along interleaved spinlock-test steps. -/
def LReach {n : Nat} (s t : LSys n) : Prop := Relation.ReflTransGen LStep s t

/-- Initial state of the spinlock counter test: lock free, counter 0
    (main.c resets smp_lock_counter before barrier 2). -/
def linit (n : Nat) : LSys n := ⟨0, 0, fun _ => .lstart⟩

/-! ## Operational model of the atomic counter test (C1)

Each hart performs atomic_add_u32(&smp_atomic_counter, 1) exactly once
(smp.c line 206, main.c line 311); one amoadd is a single atomic step. -/

/-- Program locations of one hart in the atomic counter test. -/
inductive ALoc where
  | astart
  | adone
deriving DecidableEq, Repr

/-- Contribution of one hart location to the completed-increment count. -/
def awrote : ALoc → Nat
  | .adone => 1
  | _ => 0

/-- Global state of the atomic counter test. -/
structure ASys (n : Nat) where
  counter : Nat
  harts : Fin n → ALoc

/-- Number of harts whose atomic increment has completed. -/
def awritten {n : Nat} (hs : Fin n → ALoc) : Nat :=
  ∑ i, awrote (hs i)

/-- One interleaved step: some hart executes its amoadd. -/
inductive AStep {n : Nat} : ASys n → ASys n → Prop where
  | addStep (s : ASys n) (i : Fin n) :
      s.harts i = .astart →
      AStep s ⟨(s.counter + 1) % U32LIM, updHart s.harts i .adone⟩

/-- Reachability along interleaved atomic-test steps. -/
def AReach {n : Nat} (s t : ASys n) : Prop := Relation.ReflTransGen AStep s t

/-- Initial state of the atomic counter test: counter 0 (main.c resets
    smp_atomic_counter before barrier 4). -/
def ainit (n : Nat) : ASys n := ⟨0, fun _ => .astart⟩

/-- A concrete SMP state before the release flag is raised,
    as left by BSS clearing plus smp_init on a 4-hart configuration. -/
def SMP0 : SMPState :=
  { smp_hart_release := 0, smp_harts_online := 0,
    smp_print_lock := SPINLOCK_INIT, smp_test_barrier := barrier_init 4,
    smp_lock_counter := 0, smp_test_lock := SPINLOCK_INIT,
    smp_atomic_counter := 0 }

/-! ## Invariants used in the proofs -/

/-- The states a single hart calling barrier_wait on a fresh total = 1
    barrier can pass through: straight down the last-arriver branch. -/
def soloOK (s : BSys 1) : Prop :=
  (s.bar = ⟨0, 0, 1, ⟨0⟩⟩ ∧ s.harts 0 = .acqB) ∨
  (s.bar = ⟨0, 0, 1, ⟨1⟩⟩ ∧ s.harts 0 = .incB) ∨
  (s.bar = ⟨1, 0, 1, ⟨1⟩⟩ ∧ s.harts 0 = .rdGenB) ∨
  (s.bar = ⟨1, 0, 1, ⟨1⟩⟩ ∧ s.harts 0 = .chkB 0) ∨
  (s.bar = ⟨1, 0, 1, ⟨1⟩⟩ ∧ s.harts 0 = .rstB 0) ∨
  (s.bar = ⟨0, 0, 1, ⟨1⟩⟩ ∧ s.harts 0 = .mbB 0) ∨
  (s.bar = ⟨0, 0, 1, ⟨1⟩⟩ ∧ s.harts 0 = .bmpB 0) ∨
  (s.bar = ⟨0, 1, 1, ⟨1⟩⟩ ∧ s.harts 0 = .relLastB 0) ∨
  (s.bar = ⟨0, 1, 1, ⟨0⟩⟩ ∧ s.harts 0 = .fmbB) ∨
  (s.bar = ⟨0, 1, 1, ⟨0⟩⟩ ∧ s.harts 0 = .doneB)

/-- Inductive invariant of the interleaved barrier_wait system: the
    lock word is binary and agrees with the set of lock holders, lock
    holders are unique, count stays below total at every lock-free
    point, below total before the held hart's increment and on the
    waiter branch, at most total in between, and is already back to 0
    from the reset until the last arriver's unlock. -/
def barInv {n : Nat} (s : BSys n) : Prop :=
  1 ≤ s.bar.total ∧ s.bar.total < U32LIM ∧
  s.bar.count ≤ s.bar.total ∧
  (s.bar.lock.lock = 0 ∨ s.bar.lock.lock = 1) ∧
  (s.bar.lock.lock = 0 → ∀ i, holdsLock (s.harts i) = false) ∧
  (∀ i j, holdsLock (s.harts i) = true → holdsLock (s.harts j) = true → i = j) ∧
  ((∀ i, holdsLock (s.harts i) = false) → s.bar.count < s.bar.total) ∧
  (∀ i, s.harts i = .incB → s.bar.count < s.bar.total) ∧
  (∀ i g, s.harts i = .relWaitB g → s.bar.count < s.bar.total) ∧
  (∀ i g, s.harts i = .mbB g ∨ s.harts i = .bmpB g ∨ s.harts i = .relLastB g →
    s.bar.count = 0)

/-- Inductive invariant of the spinlock counter test: the lock word is
    binary and agrees with the set of holders, holders are unique, the
    counter equals the number of completed stores (mod 2^32), and a
    hart about to store v + 1 read v from the current counter. -/
def linv {n : Nat} (s : LSys n) : Prop :=
  (s.lock = 0 ∨ s.lock = 1) ∧
  (s.lock = 0 → ∀ i, lholds (s.harts i) = false) ∧
  (∀ i j, lholds (s.harts i) = true → lholds (s.harts j) = true → i = j) ∧
  s.counter = lwritten s.harts % U32LIM ∧
  (∀ i v, s.harts i = .lwrite v → v = s.counter)

/-- Inductive invariant of the atomic counter test. -/
def ainv {n : Nat} (s : ASys n) : Prop :=
  s.counter = awritten s.harts % U32LIM

/-! ## Theorems -/

/-! ### C9: atomic read-modify-write primitives -/

/-- C9: Each atomic read-modify-write primitive returns the value the
    target word held immediately before its update while atomically
    applying the update: atomic_add_u32 / atomic_add_u64 set the word
    to its sum with val (with 32- resp. 64-bit wraparound),
    atomic_swap_u32 / atomic_swap_u64 set it to val, atomic_or_u32 ORs
    val in, atomic_and_u32 ANDs val in; every other address is
    untouched. -/
theorem atomic_rmw_returns_previous (m : Mem) (p val : Nat)
    (hm : m p < U32LIM) (hv : val < U32LIM) :
    ((atomic_add_u32 m p val).2 = m p ∧
      (atomic_add_u32 m p val).1 p = (m p + val) % U32LIM) ∧
    ((atomic_swap_u32 m p val).2 = m p ∧
      (atomic_swap_u32 m p val).1 p = val) ∧
    ((atomic_or_u32 m p val).2 = m p ∧
      (atomic_or_u32 m p val).1 p = m p ||| val) ∧
    ((atomic_and_u32 m p val).2 = m p ∧
      (atomic_and_u32 m p val).1 p = m p &&& val) ∧
    ((atomic_add_u64 m p val).2 = m p ∧
      (atomic_add_u64 m p val).1 p = (m p + val) % U64LIM) ∧
    ((atomic_swap_u64 m p val).2 = m p ∧
      (atomic_swap_u64 m p val).1 p = val) ∧
    (∀ q, q ≠ p →
      (atomic_add_u32 m p val).1 q = m q ∧
      (atomic_swap_u32 m p val).1 q = m q ∧
      (atomic_or_u32 m p val).1 q = m q ∧
      (atomic_and_u32 m p val).1 q = m q ∧
      (atomic_add_u64 m p val).1 q = m q ∧
      (atomic_swap_u64 m p val).1 q = m q) := by
  have hor : m p ||| val < U32LIM := Nat.bitwise_lt hm hv
  have hand : m p &&& val < U32LIM := lt_of_le_of_lt Nat.and_le_left hm
  have hv64 : val < U64LIM := lt_trans hv (by norm_num [U32LIM, U64LIM])
  refine ⟨⟨rfl, ?_⟩, ⟨rfl, ?_⟩, ⟨rfl, ?_⟩, ⟨rfl, ?_⟩, ⟨rfl, ?_⟩, ⟨rfl, ?_⟩, ?_⟩
  · simp [atomic_add_u32, memUpd]
  · simp [atomic_swap_u32, memUpd, Nat.mod_eq_of_lt hv]
  · simp [atomic_or_u32, memUpd, Nat.mod_eq_of_lt hor]
  · simp [atomic_and_u32, memUpd, Nat.mod_eq_of_lt hand]
  · simp [atomic_add_u64, memUpd]
  · simp [atomic_swap_u64, memUpd, Nat.mod_eq_of_lt hv64]
  · intro q hq
    simp [atomic_add_u32, atomic_swap_u32, atomic_or_u32, atomic_and_u32,
      atomic_add_u64, atomic_swap_u64, memUpd, hq]

/-- Witness for C9 at m = (fun _ => 6), p = 0, val = 3. -/
theorem atomic_rmw_returns_previous_witness :
    ((6 : Nat) < U32LIM ∧ (3 : Nat) < U32LIM) ∧
    (atomic_add_u32 (fun _ => 6) 0 3).2 = 6 ∧
    (atomic_or_u32 (fun _ => 6) 0 3).1 0 = 6 ||| 3 ∧
    (atomic_swap_u64 (fun _ => 6) 0 3).1 0 = 3 := by
  have h6 : (6 : Nat) < U32LIM := by norm_num [U32LIM]
  have h3 : (3 : Nat) < U32LIM := by norm_num [U32LIM]
  have h := atomic_rmw_returns_previous (fun _ => 6) 0 3 h6 h3
  exact ⟨⟨h6, h3⟩, h.1.1, h.2.2.1.2, h.2.2.2.2.2.1.2⟩

/-! ### C4: compare-and-swap -/

/-- Auxiliary: a genuine value mismatch makes atomic_cas_u32 report
    failure after a single lr.w, leaving memory untouched, whatever the
    store-conditional outcomes would have been. -/
theorem cas_mismatch_aux (m : Mem) (p e d : Nat) (h : m p ≠ e) :
    ∀ scOut, atomic_cas_u32 m p e d scOut = some (m, 0, 1) := by
  intro scOut
  cases scOut <;> simp [atomic_cas_u32, h]

/-- Auxiliary: with the expected value in place, k spurious
    store-conditional failures cause exactly k extra lr.w iterations
    before the store lands. -/
theorem cas_spin_aux (m : Mem) (p e d : Nat) (h : m p = e) (k : Nat)
    (rest : List Bool) :
    atomic_cas_u32 m p e d (List.replicate k false ++ true :: rest) =
      some (memUpd m p (d % U32LIM), 1, k + 1) := by
  induction k with
  | zero => simp [atomic_cas_u32, h]
  | succ k ih => simp [List.replicate_succ, atomic_cas_u32, h, ih]

/-- C4: atomic_cas_u32 on a word holding v with expected e and desired
    d succeeds and stores d when v = e, and fails immediately leaving
    the word (and all of memory) unchanged when v ≠ e; the lr.w loop is
    re-entered only for spurious store-conditional failures - k of them
    give exactly k + 1 lr.w iterations - while a genuine mismatch exits
    after one iteration no matter what the sc outcomes would be. -/
theorem atomic_cas_u32_spec (m : Mem) (p e d : Nat) :
    (m p ≠ e → ∀ scOut, atomic_cas_u32 m p e d scOut = some (m, 0, 1)) ∧
    (m p = e → d < U32LIM → ∀ (k : Nat) (rest : List Bool), ∃ mm : Mem,
      atomic_cas_u32 m p e d (List.replicate k false ++ true :: rest) =
        some (mm, 1, k + 1) ∧ mm p = d ∧ ∀ q, q ≠ p → mm q = m q) := by
  refine ⟨cas_mismatch_aux m p e d, ?_⟩
  intro h hd k rest
  refine ⟨memUpd m p (d % U32LIM), cas_spin_aux m p e d h k rest, ?_, ?_⟩
  · simp [memUpd, Nat.mod_eq_of_lt hd]
  · intro q hq
    simp [memUpd, hq]

/-- Witness for C4: a mismatch (word 5, expected 4) fails at once with
    one lr.w; a match (word 5, expected 5, desired 7) with one spurious
    sc failure succeeds in two iterations and stores 7. -/
theorem atomic_cas_u32_spec_witness :
    atomic_cas_u32 (fun _ => 5) 0 4 7 [true] = some ((fun _ => 5), 0, 1) ∧
    (∃ mm : Mem,
      atomic_cas_u32 (fun _ => 5) 0 5 7 (List.replicate 1 false ++ [true]) =
        some (mm, 1, 2) ∧ mm 0 = 7 ∧ ∀ q, q ≠ 0 → mm q = 5) := by
  constructor
  · exact (atomic_cas_u32_spec (fun _ => 5) 0 4 7).1 (by decide) [true]
  · obtain ⟨mm, h1, h2, h3⟩ :=
      (atomic_cas_u32_spec (fun _ => 5) 0 5 7).2 rfl (by norm_num [U32LIM]) 1 [true]
    exact ⟨mm, h1, h2, h3⟩

/-! ### C8: spin_trylock -/

/-- C8: spin_trylock never loops: it makes at most one sc.w attempt;
    whenever it reports failure (word observed nonzero, or reservation
    lost) the lock word is unmodified, and when it reports success the
    word was 0 and is now 1. -/
theorem spin_trylock_spec (lockVal : Nat) (scOk : Bool) :
    (spin_trylock lockVal scOk).2.2.count .scAttempt ≤ 1 ∧
    ((spin_trylock lockVal scOk).1 = false →
      (spin_trylock lockVal scOk).2.1 = lockVal) ∧
    ((spin_trylock lockVal scOk).1 = true →
      lockVal = 0 ∧ (spin_trylock lockVal scOk).2.1 = 1) := by
  by_cases h : lockVal = 0
  · subst h
    cases scOk <;> simp [spin_trylock] <;> decide
  · simp [spin_trylock, h]
    decide

/-- Witness for C8: failure on a held lock leaves the word at 5;
    success on a free lock sets it to 1. -/
theorem spin_trylock_spec_witness :
    (spin_trylock 5 true).2.1 = 5 ∧
    (0 : Nat) = 0 ∧ (spin_trylock 0 true).2.1 = 1 :=
  ⟨(spin_trylock_spec 5 true).2.1 (by decide),
    ((spin_trylock_spec 0 true).2.2 (by decide)).1,
    ((spin_trylock_spec 0 true).2.2 (by decide)).2⟩

/-! ### C7: smp_init -/

/-- C7: after smp_init the online counter, lock-test counter and
    atomic-test counter are 0, the print lock and test lock are
    unlocked, the shared barrier has count 0, generation 0, an unlocked
    internal lock and total equal to the configured hart count, and the
    trailing action is the release fence. -/
theorem smp_init_spec (numHarts : Nat) (s : SMPState) :
    (smp_init numHarts s).1.smp_harts_online = 0 ∧
    (smp_init numHarts s).1.smp_lock_counter = 0 ∧
    (smp_init numHarts s).1.smp_atomic_counter = 0 ∧
    (smp_init numHarts s).1.smp_print_lock.lock = 0 ∧
    (smp_init numHarts s).1.smp_test_lock.lock = 0 ∧
    (smp_init numHarts s).1.smp_test_barrier.count = 0 ∧
    (smp_init numHarts s).1.smp_test_barrier.generation = 0 ∧
    (smp_init numHarts s).1.smp_test_barrier.lock.lock = 0 ∧
    (smp_init numHarts s).1.smp_test_barrier.total = numHarts ∧
    (smp_init numHarts s).2 = [.wmbFence] :=
  ⟨rfl, rfl, rfl, rfl, rfl, rfl, rfl, rfl, rfl, rfl⟩

/-! ### C6: smp_release_harts -/

/-- C6: smp_release_harts performs fence w,w, stores 1 to the release
    flag, then fence w,w again (the recorded action trace), taking the
    flag from 0 to 1; every other piece of shared SMP state - the
    online counter, both test counters, the print and test locks, and
    the barrier - is unchanged. -/
theorem smp_release_harts_spec (s : SMPState) (h : s.smp_hart_release = 0) :
    (smp_release_harts s).1.smp_hart_release = 1 ∧
    (smp_release_harts s).1.smp_harts_online = s.smp_harts_online ∧
    (smp_release_harts s).1.smp_print_lock = s.smp_print_lock ∧
    (smp_release_harts s).1.smp_test_barrier = s.smp_test_barrier ∧
    (smp_release_harts s).1.smp_lock_counter = s.smp_lock_counter ∧
    (smp_release_harts s).1.smp_test_lock = s.smp_test_lock ∧
    (smp_release_harts s).1.smp_atomic_counter = s.smp_atomic_counter ∧
    (smp_release_harts s).2 = [.wmbFence, .storeReleaseFlag 1, .wmbFence] :=
  ⟨rfl, rfl, rfl, rfl, rfl, rfl, rfl, rfl⟩

/-- Witness for C6 on the concrete pre-release state SMP0. -/
theorem smp_release_harts_spec_witness :
    SMP0.smp_hart_release = 0 ∧
    (smp_release_harts SMP0).1.smp_hart_release = 1 ∧
    (smp_release_harts SMP0).2 = [.wmbFence, .storeReleaseFlag 1, .wmbFence] :=
  ⟨rfl, (smp_release_harts_spec SMP0 rfl).1,
    (smp_release_harts_spec SMP0 rfl).2.2.2.2.2.2.2⟩

/-! ### Helper lemmas about hart-map updates -/

/-- Updating hart i and reading hart i gives the new location. -/
theorem updHart_self {n : Nat} {α : Type} (hs : Fin n → α) (i : Fin n) (a : α) :
    updHart hs i a i = a := by
  simp [updHart]

/-- Updating hart j leaves any other hart i unchanged. -/
theorem updHart_ne {n : Nat} {α : Type} (hs : Fin n → α) {i j : Fin n} (a : α)
    (h : i ≠ j) : updHart hs j a i = hs i := by
  simp [updHart, Function.update_noteq h]

/-! ### C2: the barrier_wait release/wait protocol -/

/-- C2: in barrier_wait, the arriving hart increments count and captures
    the generation while holding the internal lock; the hart whose
    increment makes count reach total goes down the release branch,
    which resets count to 0, then performs the memory barrier, then
    advances generation by exactly one, then releases the lock; every
    other hart releases the lock and then waits solely on the
    generation: while generation still equals its captured value no
    step of any hart moves it past the spin loop, and once generation
    differs it exits, for any value of count (it never re-reads count
    after its own increment). -/
theorem barrier_wait_protocol {n : Nat} (s : BSys n) (i : Fin n) (g : Nat) :
    (s.harts i = .incB → holdsLock (s.harts i) = true ∧
      BStep s ⟨{ s.bar with count := (s.bar.count + 1) % U32LIM },
               updHart s.harts i .rdGenB⟩) ∧
    (s.harts i = .rdGenB → holdsLock (s.harts i) = true ∧
      BStep s ⟨s.bar, updHart s.harts i (.chkB s.bar.generation)⟩) ∧
    (s.harts i = .chkB g → s.bar.total ≤ s.bar.count →
      BStep s ⟨s.bar, updHart s.harts i (.rstB g)⟩) ∧
    (s.harts i = .rstB g →
      BStep s ⟨{ s.bar with count := 0 }, updHart s.harts i (.mbB g)⟩) ∧
    (s.harts i = .mbB g → BStep s ⟨s.bar, updHart s.harts i (.bmpB g)⟩) ∧
    (s.harts i = .bmpB g →
      BStep s ⟨{ s.bar with generation := (s.bar.generation + 1) % U32LIM },
               updHart s.harts i (.relLastB g)⟩) ∧
    (s.harts i = .relLastB g →
      BStep s ⟨{ s.bar with lock := ⟨0⟩ }, updHart s.harts i .fmbB⟩) ∧
    (s.harts i = .relWaitB g →
      BStep s ⟨{ s.bar with lock := ⟨0⟩ }, updHart s.harts i (.spinB g)⟩) ∧
    (s.harts i = .spinB g → s.bar.generation ≠ g →
      ∀ c, BStep ⟨{ s.bar with count := c }, s.harts⟩
             ⟨{ s.bar with count := c }, updHart s.harts i .fmbB⟩) ∧
    (s.harts i = .spinB g → s.bar.generation = g →
      ∀ t, BStep s t → t.harts i = .spinB g) := by
  refine ⟨fun hi => ⟨by rw [hi]; rfl, BStep.inc s i hi⟩,
    fun hi => ⟨by rw [hi]; rfl, BStep.rdGen s i hi⟩,
    fun hi hge => BStep.chkLast s i g hi hge,
    fun hi => BStep.rst s i g hi,
    fun hi => BStep.mbStep s i g hi,
    fun hi => BStep.bmp s i g hi,
    fun hi => BStep.relLast s i g hi,
    fun hi => BStep.relWait s i g hi,
    fun hi hne c => BStep.spinExit ⟨{ s.bar with count := c }, s.harts⟩ i g hi hne,
    ?_⟩
  intro hi hgen t hstep
  cases hstep with
  | acq j hj hl =>
      have hji : i ≠ j := by intro h; rw [h, hj] at hi; simp at hi
      simp [updHart, Function.update_noteq hji, hi]
  | inc j hj =>
      have hji : i ≠ j := by intro h; rw [h, hj] at hi; simp at hi
      simp [updHart, Function.update_noteq hji, hi]
  | rdGen j hj =>
      have hji : i ≠ j := by intro h; rw [h, hj] at hi; simp at hi
      simp [updHart, Function.update_noteq hji, hi]
  | chkLast j g2 hj hc =>
      have hji : i ≠ j := by intro h; rw [h, hj] at hi; simp at hi
      simp [updHart, Function.update_noteq hji, hi]
  | chkWait j g2 hj hc =>
      have hji : i ≠ j := by intro h; rw [h, hj] at hi; simp at hi
      simp [updHart, Function.update_noteq hji, hi]
  | rst j g2 hj =>
      have hji : i ≠ j := by intro h; rw [h, hj] at hi; simp at hi
      simp [updHart, Function.update_noteq hji, hi]
  | mbStep j g2 hj =>
      have hji : i ≠ j := by intro h; rw [h, hj] at hi; simp at hi
      simp [updHart, Function.update_noteq hji, hi]
  | bmp j g2 hj =>
      have hji : i ≠ j := by intro h; rw [h, hj] at hi; simp at hi
      simp [updHart, Function.update_noteq hji, hi]
  | relLast j g2 hj =>
      have hji : i ≠ j := by intro h; rw [h, hj] at hi; simp at hi
      simp [updHart, Function.update_noteq hji, hi]
  | relWait j g2 hj =>
      have hji : i ≠ j := by intro h; rw [h, hj] at hi; simp at hi
      simp [updHart, Function.update_noteq hji, hi]
  | spinExit j g2 hj hne =>
      by_cases hji : i = j
      · subst hji
        rw [hi] at hj
        injection hj with hg
        rw [← hg] at hne
        exact absurd hgen hne
      · simp [updHart, Function.update_noteq hji, hi]
  | fmb j hj =>
      have hji : i ≠ j := by intro h; rw [h, hj] at hi; simp at hi
      simp [updHart, Function.update_noteq hji, hi]

/-- Witness for C2: on a 1-hart system the reset, generation-bump and
    blocked-spin components hold at concrete states. -/
theorem barrier_wait_protocol_witness :
    BStep ⟨⟨1, 0, 1, ⟨1⟩⟩, fun _ : Fin 1 => BLoc.rstB 0⟩
      ⟨{ (⟨1, 0, 1, ⟨1⟩⟩ : barrier_t) with count := 0 },
        updHart (fun _ : Fin 1 => BLoc.rstB 0) 0 (.mbB 0)⟩ ∧
    BStep ⟨⟨0, 0, 1, ⟨1⟩⟩, fun _ : Fin 1 => BLoc.bmpB 0⟩
      ⟨{ (⟨0, 0, 1, ⟨1⟩⟩ : barrier_t) with generation := (0 + 1) % U32LIM },
        updHart (fun _ : Fin 1 => BLoc.bmpB 0) 0 (.relLastB 0)⟩ ∧
    ∀ t, BStep ⟨⟨0, 0, 2, ⟨0⟩⟩, fun _ : Fin 1 => BLoc.spinB 0⟩ t →
      t.harts 0 = BLoc.spinB 0 :=
  ⟨(barrier_wait_protocol ⟨⟨1, 0, 1, ⟨1⟩⟩, fun _ => BLoc.rstB 0⟩ 0 0).2.2.2.1 rfl,
    (barrier_wait_protocol ⟨⟨0, 0, 1, ⟨1⟩⟩, fun _ => BLoc.bmpB 0⟩ 0 0).2.2.2.2.2.1 rfl,
    (barrier_wait_protocol ⟨⟨0, 0, 2, ⟨0⟩⟩, fun _ => BLoc.spinB 0⟩ 0 0).2.2.2.2.2.2.2.2.2
      rfl rfl⟩

/-! ### C10: count >= total always selects the release path -/

/-- C10: barrier_wait compares the post-increment count to total with
    >=, so a hart at the branch with count at or beyond total (extra
    arrival, or a barrier misconfigured with total = 0) takes the
    release path: its own step goes to the reset statement, and no
    system step can move it onto the waiting branch. -/
theorem barrier_wait_ge_release_path {n : Nat} (s : BSys n) (i : Fin n) (g : Nat)
    (h : s.harts i = .chkB g) (hge : s.bar.total ≤ s.bar.count) :
    BStep s ⟨s.bar, updHart s.harts i (.rstB g)⟩ ∧
    ∀ t, BStep s t → t.harts i = .chkB g ∨ t.harts i = .rstB g := by
  refine ⟨BStep.chkLast s i g h hge, ?_⟩
  intro t hstep
  cases hstep with
  | acq j hj hl =>
      have hji : i ≠ j := by intro hh; rw [hh, hj] at h; simp at h
      left; simp [updHart, Function.update_noteq hji, h]
  | inc j hj =>
      have hji : i ≠ j := by intro hh; rw [hh, hj] at h; simp at h
      left; simp [updHart, Function.update_noteq hji, h]
  | rdGen j hj =>
      have hji : i ≠ j := by intro hh; rw [hh, hj] at h; simp at h
      left; simp [updHart, Function.update_noteq hji, h]
  | chkLast j g2 hj hc =>
      by_cases hji : i = j
      · subst hji
        rw [h] at hj
        injection hj with hg
        subst hg
        right; simp [updHart]
      · left; simp [updHart, Function.update_noteq hji, h]
  | chkWait j g2 hj hc =>
      by_cases hji : i = j
      · subst hji
        exact absurd hc (by omega)
      · left; simp [updHart, Function.update_noteq hji, h]
  | rst j g2 hj =>
      have hji : i ≠ j := by intro hh; rw [hh, hj] at h; simp at h
      left; simp [updHart, Function.update_noteq hji, h]
  | mbStep j g2 hj =>
      have hji : i ≠ j := by intro hh; rw [hh, hj] at h; simp at h
      left; simp [updHart, Function.update_noteq hji, h]
  | bmp j g2 hj =>
      have hji : i ≠ j := by intro hh; rw [hh, hj] at h; simp at h
      left; simp [updHart, Function.update_noteq hji, h]
  | relLast j g2 hj =>
      have hji : i ≠ j := by intro hh; rw [hh, hj] at h; simp at h
      left; simp [updHart, Function.update_noteq hji, h]
  | relWait j g2 hj =>
      have hji : i ≠ j := by intro hh; rw [hh, hj] at h; simp at h
      left; simp [updHart, Function.update_noteq hji, h]
  | spinExit j g2 hj hne =>
      have hji : i ≠ j := by intro hh; rw [hh, hj] at h; simp at h
      left; simp [updHart, Function.update_noteq hji, h]
  | fmb j hj =>
      have hji : i ≠ j := by intro hh; rw [hh, hj] at h; simp at h
      left; simp [updHart, Function.update_noteq hji, h]

/-- Witness for C10 on a barrier misconfigured with total = 0: the sole
    hart, holding the lock at the branch, steps to the reset. -/
theorem barrier_wait_ge_release_path_witness :
    BStep ⟨⟨0, 0, 0, ⟨1⟩⟩, fun _ : Fin 1 => BLoc.chkB 0⟩
      ⟨⟨0, 0, 0, ⟨1⟩⟩, updHart (fun _ : Fin 1 => BLoc.chkB 0) 0 (.rstB 0)⟩ :=
  (barrier_wait_ge_release_path ⟨⟨0, 0, 0, ⟨1⟩⟩, fun _ => BLoc.chkB 0⟩ 0 0 rfl
    (Nat.zero_le 0)).1

/-! ### C5: a total = 1 barrier is a pass-through -/

/-- Auxiliary: the solo-hart state set soloOK is closed under steps of
    the barrier_wait machine. -/
theorem solo_closed (s t : BSys 1) (hOK : soloOK s) (hstep : BStep s t) :
    soloOK t := by
  cases hstep with
  | acq i hi hl =>
      have hi0 : i = 0 := Fin.eq_zero i
      subst hi0
      rcases hOK with ⟨hb, hh⟩|⟨hb, hh⟩|⟨hb, hh⟩|⟨hb, hh⟩|⟨hb, hh⟩|⟨hb, hh⟩|⟨hb, hh⟩|⟨hb, hh⟩|⟨hb, hh⟩|⟨hb, hh⟩ <;>
        rw [hh] at hi <;> simp_all [soloOK, updHart, U32LIM]
  | inc i hi =>
      have hi0 : i = 0 := Fin.eq_zero i
      subst hi0
      rcases hOK with ⟨hb, hh⟩|⟨hb, hh⟩|⟨hb, hh⟩|⟨hb, hh⟩|⟨hb, hh⟩|⟨hb, hh⟩|⟨hb, hh⟩|⟨hb, hh⟩|⟨hb, hh⟩|⟨hb, hh⟩ <;>
        rw [hh] at hi <;> simp_all [soloOK, updHart, U32LIM]
  | rdGen i hi =>
      have hi0 : i = 0 := Fin.eq_zero i
      subst hi0
      rcases hOK with ⟨hb, hh⟩|⟨hb, hh⟩|⟨hb, hh⟩|⟨hb, hh⟩|⟨hb, hh⟩|⟨hb, hh⟩|⟨hb, hh⟩|⟨hb, hh⟩|⟨hb, hh⟩|⟨hb, hh⟩ <;>
        rw [hh] at hi <;> simp_all [soloOK, updHart, U32LIM]
  | chkLast i g2 hi hc =>
      have hi0 : i = 0 := Fin.eq_zero i
      subst hi0
      rcases hOK with ⟨hb, hh⟩|⟨hb, hh⟩|⟨hb, hh⟩|⟨hb, hh⟩|⟨hb, hh⟩|⟨hb, hh⟩|⟨hb, hh⟩|⟨hb, hh⟩|⟨hb, hh⟩|⟨hb, hh⟩ <;>
        rw [hh] at hi <;> simp_all [soloOK, updHart, U32LIM]
  | chkWait i g2 hi hc =>
      have hi0 : i = 0 := Fin.eq_zero i
      subst hi0
      rcases hOK with ⟨hb, hh⟩|⟨hb, hh⟩|⟨hb, hh⟩|⟨hb, hh⟩|⟨hb, hh⟩|⟨hb, hh⟩|⟨hb, hh⟩|⟨hb, hh⟩|⟨hb, hh⟩|⟨hb, hh⟩ <;>
        rw [hh] at hi <;> simp_all [soloOK, updHart, U32LIM]
  | rst i g2 hi =>
      have hi0 : i = 0 := Fin.eq_zero i
      subst hi0
      rcases hOK with ⟨hb, hh⟩|⟨hb, hh⟩|⟨hb, hh⟩|⟨hb, hh⟩|⟨hb, hh⟩|⟨hb, hh⟩|⟨hb, hh⟩|⟨hb, hh⟩|⟨hb, hh⟩|⟨hb, hh⟩ <;>
        rw [hh] at hi <;> simp_all [soloOK, updHart, U32LIM]
  | mbStep i g2 hi =>
      have hi0 : i = 0 := Fin.eq_zero i
      subst hi0
      rcases hOK with ⟨hb, hh⟩|⟨hb, hh⟩|⟨hb, hh⟩|⟨hb, hh⟩|⟨hb, hh⟩|⟨hb, hh⟩|⟨hb, hh⟩|⟨hb, hh⟩|⟨hb, hh⟩|⟨hb, hh⟩ <;>
        rw [hh] at hi <;> simp_all [soloOK, updHart, U32LIM]
  | bmp i g2 hi =>
      have hi0 : i = 0 := Fin.eq_zero i
      subst hi0
      rcases hOK with ⟨hb, hh⟩|⟨hb, hh⟩|⟨hb, hh⟩|⟨hb, hh⟩|⟨hb, hh⟩|⟨hb, hh⟩|⟨hb, hh⟩|⟨hb, hh⟩|⟨hb, hh⟩|⟨hb, hh⟩ <;>
        rw [hh] at hi <;> simp_all [soloOK, updHart, U32LIM] <;> omega
  | relLast i g2 hi =>
      have hi0 : i = 0 := Fin.eq_zero i
      subst hi0
      rcases hOK with ⟨hb, hh⟩|⟨hb, hh⟩|⟨hb, hh⟩|⟨hb, hh⟩|⟨hb, hh⟩|⟨hb, hh⟩|⟨hb, hh⟩|⟨hb, hh⟩|⟨hb, hh⟩|⟨hb, hh⟩ <;>
        rw [hh] at hi <;> simp_all [soloOK, updHart, U32LIM]
  | relWait i g2 hi =>
      have hi0 : i = 0 := Fin.eq_zero i
      subst hi0
      rcases hOK with ⟨hb, hh⟩|⟨hb, hh⟩|⟨hb, hh⟩|⟨hb, hh⟩|⟨hb, hh⟩|⟨hb, hh⟩|⟨hb, hh⟩|⟨hb, hh⟩|⟨hb, hh⟩|⟨hb, hh⟩ <;>
        rw [hh] at hi <;> simp_all [soloOK, updHart, U32LIM]
  | spinExit i g2 hi hne =>
      have hi0 : i = 0 := Fin.eq_zero i
      subst hi0
      rcases hOK with ⟨hb, hh⟩|⟨hb, hh⟩|⟨hb, hh⟩|⟨hb, hh⟩|⟨hb, hh⟩|⟨hb, hh⟩|⟨hb, hh⟩|⟨hb, hh⟩|⟨hb, hh⟩|⟨hb, hh⟩ <;>
        rw [hh] at hi <;> simp_all [soloOK, updHart, U32LIM]
  | fmb i hi =>
      have hi0 : i = 0 := Fin.eq_zero i
      subst hi0
      rcases hOK with ⟨hb, hh⟩|⟨hb, hh⟩|⟨hb, hh⟩|⟨hb, hh⟩|⟨hb, hh⟩|⟨hb, hh⟩|⟨hb, hh⟩|⟨hb, hh⟩|⟨hb, hh⟩|⟨hb, hh⟩ <;>
        rw [hh] at hi <;> simp_all [soloOK, updHart, U32LIM]

/-- C5: on a barrier constructed with total = 1, the sole participant
    always takes the last-arriver branch: in no reachable state is it
    on the waiter branch or in the generation spin loop, and when it
    has returned the barrier has count 0 and generation advanced from 0
    to 1. -/
theorem barrier_total_one_no_wait (s : BSys 1) (h : BReach (binit 1 1) s) :
    (∀ g, s.harts 0 ≠ .relWaitB g ∧ s.harts 0 ≠ .spinB g) ∧
    (s.harts 0 = .doneB → s.bar.count = 0 ∧ s.bar.generation = 1) := by
  have hOK : soloOK s := by
    induction h with
    | refl => exact Or.inl ⟨rfl, rfl⟩
    | tail hr hs ih => exact solo_closed _ _ ih hs
  constructor
  · intro g
    rcases hOK with ⟨_, hh⟩|⟨_, hh⟩|⟨_, hh⟩|⟨_, hh⟩|⟨_, hh⟩|⟨_, hh⟩|⟨_, hh⟩|⟨_, hh⟩|⟨_, hh⟩|⟨_, hh⟩ <;>
      rw [hh] <;> exact ⟨by simp, by simp⟩
  · intro hd
    rcases hOK with ⟨hb, hh⟩|⟨hb, hh⟩|⟨hb, hh⟩|⟨hb, hh⟩|⟨hb, hh⟩|⟨hb, hh⟩|⟨hb, hh⟩|⟨hb, hh⟩|⟨hb, hh⟩|⟨hb, hh⟩ <;>
      rw [hh] at hd <;> simp at hd
    exact ⟨by rw [hb], by rw [hb]⟩

/-- Witness for C5: the concrete full run of the sole hart through
    barrier_wait on a total = 1 barrier, ending returned with count 0
    and generation 1. -/
theorem barrier_total_one_no_wait_witness :
    ∃ s : BSys 1, BReach (binit 1 1) s ∧ s.harts 0 = .doneB ∧
      s.bar.count = 0 ∧ s.bar.generation = 1 := by
  have r0 : BReach (binit 1 1) (binit 1 1) := Relation.ReflTransGen.refl
  have r1 := Relation.ReflTransGen.tail r0 (BStep.acq (binit 1 1) 0 rfl rfl)
  have r2 := Relation.ReflTransGen.tail r1 (BStep.inc _ 0 (by simp [updHart]))
  have r3 := Relation.ReflTransGen.tail r2 (BStep.rdGen _ 0 (by simp [updHart]))
  have r4 := Relation.ReflTransGen.tail r3 (BStep.chkLast _ 0 0
    (by norm_num [updHart, binit, barrier_init, SPINLOCK_INIT])
    (by norm_num [updHart, binit, barrier_init, SPINLOCK_INIT, U32LIM]))
  have r5 := Relation.ReflTransGen.tail r4 (BStep.rst _ 0 0 (by simp [updHart]))
  have r6 := Relation.ReflTransGen.tail r5 (BStep.mbStep _ 0 0 (by simp [updHart]))
  have r7 := Relation.ReflTransGen.tail r6 (BStep.bmp _ 0 0 (by simp [updHart]))
  have r8 := Relation.ReflTransGen.tail r7 (BStep.relLast _ 0 0 (by simp [updHart]))
  have r9 := Relation.ReflTransGen.tail r8 (BStep.fmb _ 0 (by simp [updHart]))
  refine ⟨_, r9, by simp [updHart], ?_⟩
  exact (barrier_total_one_no_wait _ r9).2 (by simp [updHart])

/-! ### C3: count stays in [0, total) -/

/-- Auxiliary: if hart k's new location differs from the written one,
    k is a different hart and already had that location. -/
theorem upd_eq_elsewhere {n : Nat} {α : Type} (hs : Fin n → α) (j : Fin n)
    (L : α) {k : Fin n} {M : α} (hk : updHart hs j L k = M) (hLM : L ≠ M) :
    k ≠ j ∧ hs k = M := by
  by_cases hkj : k = j
  · subst hkj
    rw [updHart_self] at hk
    exact absurd hk hLM
  · rw [updHart_ne _ _ hkj] at hk
    exact ⟨hkj, hk⟩

/-- Auxiliary: upd_eq_elsewhere for the three tail locations of the
    last-arriver branch at once. -/
theorem upd_tail_disj {n : Nat} (hs : Fin n → BLoc) (j : Fin n) (L : BLoc)
    {k : Fin n} {g : Nat}
    (hL1 : ∀ g2, L ≠ .mbB g2) (hL2 : ∀ g2, L ≠ .bmpB g2)
    (hL3 : ∀ g2, L ≠ .relLastB g2)
    (hk : updHart hs j L k = .mbB g ∨ updHart hs j L k = .bmpB g ∨
      updHart hs j L k = .relLastB g) :
    k ≠ j ∧ (hs k = .mbB g ∨ hs k = .bmpB g ∨ hs k = .relLastB g) := by
  rcases hk with hk | hk | hk
  · obtain ⟨hkj, h⟩ := upd_eq_elsewhere hs j L hk (hL1 g)
    exact ⟨hkj, Or.inl h⟩
  · obtain ⟨hkj, h⟩ := upd_eq_elsewhere hs j L hk (hL2 g)
    exact ⟨hkj, Or.inr (Or.inl h)⟩
  · obtain ⟨hkj, h⟩ := upd_eq_elsewhere hs j L hk (hL3 g)
    exact ⟨hkj, Or.inr (Or.inr h)⟩

/-- Auxiliary: when nobody held, at most the updated hart holds. -/
theorem holders_uniq_fresh {n : Nat} {α : Type} (holds : α → Bool)
    (hs : Fin n → α) (j : Fin n) (L : α)
    (hnone : ∀ i, holds (hs i) = false) :
    ∀ i k, holds (updHart hs j L i) = true →
      holds (updHart hs j L k) = true → i = k := by
  intro i k hi hk
  by_cases hij : i = j <;> by_cases hkj : k = j
  · rw [hij, hkj]
  · rw [updHart_ne _ _ hkj, hnone k] at hk
    simp at hk
  · rw [updHart_ne _ _ hij, hnone i] at hi
    simp at hi
  · rw [updHart_ne _ _ hij, hnone i] at hi
    simp at hi

/-- Auxiliary: uniqueness of holders survives a step by the holder. -/
theorem holders_uniq_upd {n : Nat} {α : Type} (holds : α → Bool)
    (hs : Fin n → α) (j : Fin n) (L : α)
    (huniq : ∀ i k, holds (hs i) = true → holds (hs k) = true → i = k)
    (hj : holds (hs j) = true) :
    ∀ i k, holds (updHart hs j L i) = true →
      holds (updHart hs j L k) = true → i = k := by
  intro i k hi hk
  by_cases hij : i = j <;> by_cases hkj : k = j
  · rw [hij, hkj]
  · rw [updHart_ne _ _ hkj] at hk
    exact absurd (huniq k j hk hj) hkj
  · rw [updHart_ne _ _ hij] at hi
    exact absurd (huniq i j hi hj) hij
  · rw [updHart_ne _ _ hij] at hi
    rw [updHart_ne _ _ hkj] at hk
    exact huniq i k hi hk

/-- Auxiliary: uniqueness of holders survives a step by a non-holder
    into a non-holding location. -/
theorem holders_uniq_upd_nonhold {n : Nat} {α : Type} (holds : α → Bool)
    (hs : Fin n → α) (j : Fin n) (L : α)
    (huniq : ∀ i k, holds (hs i) = true → holds (hs k) = true → i = k)
    (hL : holds L = false) :
    ∀ i k, holds (updHart hs j L i) = true →
      holds (updHart hs j L k) = true → i = k := by
  intro i k hi hk
  by_cases hij : i = j
  · subst hij
    rw [updHart_self, hL] at hi
    simp at hi
  · by_cases hkj : k = j
    · subst hkj
      rw [updHart_self, hL] at hk
      simp at hk
    · rw [updHart_ne _ _ hij] at hi
      rw [updHart_ne _ _ hkj] at hk
      exact huniq i k hi hk

/-- Auxiliary: no step of the barrier_wait machine changes total. -/
theorem btotal_step {n : Nat} {s t : BSys n} (hstep : BStep s t) :
    t.bar.total = s.bar.total := by
  cases hstep <;> rfl

/-- Auxiliary: total is constant along every reachable run. -/
theorem btotal_reach {n : Nat} {s t : BSys n} (hr : BReach s t) :
    t.bar.total = s.bar.total := by
  induction hr with
  | refl => rfl
  | tail hr hs ih => rw [btotal_step hs, ih]

/-- Auxiliary: barInv holds in the initial barrier state. -/
theorem barInv_init (n total : Nat) (h1 : 1 ≤ total) (h2 : total < U32LIM) :
    barInv (binit n total) := by
  refine ⟨h1, h2, Nat.zero_le _, Or.inl rfl, ?_, ?_, ?_, ?_, ?_, ?_⟩
  · intro _ i
    rfl
  · intro i k hi hk
    simp [binit, holdsLock] at hi
  · intro _
    exact h1
  · intro i hi
    simp [binit] at hi
  · intro i g hi
    simp [binit] at hi
  · intro i g hi
    rcases hi with hi | hi | hi <;> simp [binit] at hi

/-- Auxiliary: barInv is preserved by every step of the barrier_wait
    machine. -/
theorem barInv_step {n : Nat} {s t : BSys n} (hinv : barInv s)
    (hstep : BStep s t) : barInv t := by
  obtain ⟨h1, h2, h3, h4, h5, h6, h7, h8, h9, h10⟩ := hinv
  cases hstep with
  | acq j hj hl =>
      have hnone : ∀ i, holdsLock (s.harts i) = false := h5 hl
      refine ⟨h1, h2, h3, Or.inr rfl, ?_, ?_, ?_, ?_, ?_, ?_⟩
      · intro h0
        simp at h0
      · exact holders_uniq_fresh holdsLock s.harts j BLoc.incB hnone
      · intro hall
        have hx := hall j
        simp only [updHart_self] at hx
        simp [holdsLock] at hx
      · intro k hk
        exact h7 hnone
      · intro k g hk
        exact h7 hnone
      · intro k g hk
        obtain ⟨hkj, hold⟩ := upd_tail_disj s.harts j BLoc.incB
          (by simp) (by simp) (by simp) hk
        have hc := hnone k
        rcases hold with h | h | h <;> rw [h] at hc <;> simp [holdsLock] at hc
  | inc j hj =>
      have hjh : holdsLock (s.harts j) = true := by rw [hj]; rfl
      refine ⟨h1, h2, ?_, h4, ?_, ?_, ?_, ?_, ?_, ?_⟩
      · show (s.bar.count + 1) % U32LIM ≤ s.bar.total
        have hlt := h8 j hj
        have heq : (s.bar.count + 1) % U32LIM = s.bar.count + 1 :=
          Nat.mod_eq_of_lt (by omega)
        omega
      · intro h0 k
        have hx := h5 h0 j
        rw [hj] at hx
        simp [holdsLock] at hx
      · exact holders_uniq_upd holdsLock s.harts j BLoc.rdGenB h6 hjh
      · intro hall
        have hx := hall j
        simp only [updHart_self] at hx
        simp [holdsLock] at hx
      · intro k hk
        obtain ⟨hkj, hold⟩ := upd_eq_elsewhere s.harts j BLoc.rdGenB hk (by simp)
        exact absurd (h6 k j (by rw [hold]; rfl) hjh) hkj
      · intro k g hk
        obtain ⟨hkj, hold⟩ := upd_eq_elsewhere s.harts j BLoc.rdGenB hk (by simp)
        exact absurd (h6 k j (by rw [hold]; rfl) hjh) hkj
      · intro k g hk
        obtain ⟨hkj, hold⟩ := upd_tail_disj s.harts j BLoc.rdGenB
          (by simp) (by simp) (by simp) hk
        have : k = j := h6 k j (by rcases hold with h | h | h <;> rw [h] <;> rfl) hjh
        exact absurd this hkj
  | rdGen j hj =>
      have hjh : holdsLock (s.harts j) = true := by rw [hj]; rfl
      refine ⟨h1, h2, h3, h4, ?_, ?_, ?_, ?_, ?_, ?_⟩
      · intro h0 k
        have hx := h5 h0 j
        rw [hj] at hx
        simp [holdsLock] at hx
      · exact holders_uniq_upd holdsLock s.harts j (BLoc.chkB s.bar.generation) h6 hjh
      · intro hall
        have hx := hall j
        simp only [updHart_self] at hx
        simp [holdsLock] at hx
      · intro k hk
        obtain ⟨hkj, hold⟩ := upd_eq_elsewhere s.harts j (BLoc.chkB s.bar.generation) hk (by simp)
        exact h8 k hold
      · intro k g hk
        obtain ⟨hkj, hold⟩ := upd_eq_elsewhere s.harts j (BLoc.chkB s.bar.generation) hk (by simp)
        exact h9 k g hold
      · intro k g hk
        obtain ⟨hkj, hold⟩ := upd_tail_disj s.harts j (BLoc.chkB s.bar.generation)
          (by simp) (by simp) (by simp) hk
        exact h10 k g hold
  | chkLast j g2 hj hge =>
      have hjh : holdsLock (s.harts j) = true := by rw [hj]; rfl
      refine ⟨h1, h2, h3, h4, ?_, ?_, ?_, ?_, ?_, ?_⟩
      · intro h0 k
        have hx := h5 h0 j
        rw [hj] at hx
        simp [holdsLock] at hx
      · exact holders_uniq_upd holdsLock s.harts j (BLoc.rstB g2) h6 hjh
      · intro hall
        have hx := hall j
        simp only [updHart_self] at hx
        simp [holdsLock] at hx
      · intro k hk
        obtain ⟨hkj, hold⟩ := upd_eq_elsewhere s.harts j (BLoc.rstB g2) hk (by simp)
        exact h8 k hold
      · intro k g hk
        obtain ⟨hkj, hold⟩ := upd_eq_elsewhere s.harts j (BLoc.rstB g2) hk (by simp)
        exact h9 k g hold
      · intro k g hk
        obtain ⟨hkj, hold⟩ := upd_tail_disj s.harts j (BLoc.rstB g2)
          (by simp) (by simp) (by simp) hk
        exact h10 k g hold
  | chkWait j g2 hj hc =>
      have hjh : holdsLock (s.harts j) = true := by rw [hj]; rfl
      refine ⟨h1, h2, h3, h4, ?_, ?_, ?_, ?_, ?_, ?_⟩
      · intro h0 k
        have hx := h5 h0 j
        rw [hj] at hx
        simp [holdsLock] at hx
      · exact holders_uniq_upd holdsLock s.harts j (BLoc.relWaitB g2) h6 hjh
      · intro hall
        have hx := hall j
        simp only [updHart_self] at hx
        simp [holdsLock] at hx
      · intro k hk
        exact hc
      · intro k g hk
        exact hc
      · intro k g hk
        obtain ⟨hkj, hold⟩ := upd_tail_disj s.harts j (BLoc.relWaitB g2)
          (by simp) (by simp) (by simp) hk
        exact h10 k g hold
  | rst j g2 hj =>
      have hjh : holdsLock (s.harts j) = true := by rw [hj]; rfl
      refine ⟨h1, h2, Nat.zero_le _, h4, ?_, ?_, ?_, ?_, ?_, ?_⟩
      · intro h0 k
        have hx := h5 h0 j
        rw [hj] at hx
        simp [holdsLock] at hx
      · exact holders_uniq_upd holdsLock s.harts j (BLoc.mbB g2) h6 hjh
      · intro hall
        have hx := hall j
        simp only [updHart_self] at hx
        simp [holdsLock] at hx
      · intro k hk
        exact h1
      · intro k g hk
        exact h1
      · intro k g hk
        rfl
  | mbStep j g2 hj =>
      have hjh : holdsLock (s.harts j) = true := by rw [hj]; rfl
      have h0c : s.bar.count = 0 := h10 j g2 (Or.inl hj)
      refine ⟨h1, h2, h3, h4, ?_, ?_, ?_, ?_, ?_, ?_⟩
      · intro h0 k
        have hx := h5 h0 j
        rw [hj] at hx
        simp [holdsLock] at hx
      · exact holders_uniq_upd holdsLock s.harts j (BLoc.bmpB g2) h6 hjh
      · intro hall
        have hx := hall j
        simp only [updHart_self] at hx
        simp [holdsLock] at hx
      · intro k hk
        show s.bar.count < s.bar.total
        omega
      · intro k g hk
        show s.bar.count < s.bar.total
        omega
      · intro k g hk
        exact h0c
  | bmp j g2 hj =>
      have hjh : holdsLock (s.harts j) = true := by rw [hj]; rfl
      have h0c : s.bar.count = 0 := h10 j g2 (Or.inr (Or.inl hj))
      refine ⟨h1, h2, h3, h4, ?_, ?_, ?_, ?_, ?_, ?_⟩
      · intro h0 k
        have hx := h5 h0 j
        rw [hj] at hx
        simp [holdsLock] at hx
      · exact holders_uniq_upd holdsLock s.harts j (BLoc.relLastB g2) h6 hjh
      · intro hall
        have hx := hall j
        simp only [updHart_self] at hx
        simp [holdsLock] at hx
      · intro k hk
        show s.bar.count < s.bar.total
        omega
      · intro k g hk
        show s.bar.count < s.bar.total
        omega
      · intro k g hk
        exact h0c
  | relLast j g2 hj =>
      have hjh : holdsLock (s.harts j) = true := by rw [hj]; rfl
      have h0c : s.bar.count = 0 := h10 j g2 (Or.inr (Or.inr hj))
      refine ⟨h1, h2, h3, Or.inl rfl, ?_, ?_, ?_, ?_, ?_, ?_⟩
      · intro _ k
        by_cases hkj : k = j
        · subst hkj
          simp [updHart_self, holdsLock]
        · simp only [updHart_ne _ _ hkj]
          cases hx : holdsLock (s.harts k)
          · rfl
          · exact absurd (h6 k j hx hjh) hkj
      · exact holders_uniq_upd holdsLock s.harts j BLoc.fmbB h6 hjh
      · intro _
        show s.bar.count < s.bar.total
        omega
      · intro k hk
        show s.bar.count < s.bar.total
        omega
      · intro k g hk
        show s.bar.count < s.bar.total
        omega
      · intro k g hk
        exact h0c
  | relWait j g2 hj =>
      have hjh : holdsLock (s.harts j) = true := by rw [hj]; rfl
      have hlt : s.bar.count < s.bar.total := h9 j g2 hj
      refine ⟨h1, h2, h3, Or.inl rfl, ?_, ?_, ?_, ?_, ?_, ?_⟩
      · intro _ k
        by_cases hkj : k = j
        · subst hkj
          simp [updHart_self, holdsLock]
        · simp only [updHart_ne _ _ hkj]
          cases hx : holdsLock (s.harts k)
          · rfl
          · exact absurd (h6 k j hx hjh) hkj
      · exact holders_uniq_upd holdsLock s.harts j (BLoc.spinB g2) h6 hjh
      · intro _
        exact hlt
      · intro k hk
        exact hlt
      · intro k g hk
        exact hlt
      · intro k g hk
        obtain ⟨hkj, hold⟩ := upd_tail_disj s.harts j (BLoc.spinB g2)
          (by simp) (by simp) (by simp) hk
        exact h10 k g hold
  | spinExit j g2 hj hne =>
      refine ⟨h1, h2, h3, h4, ?_, ?_, ?_, ?_, ?_, ?_⟩
      · intro h0 k
        by_cases hkj : k = j
        · subst hkj
          simp [updHart_self, holdsLock]
        · simp only [updHart_ne _ _ hkj]
          exact h5 h0 k
      · exact holders_uniq_upd_nonhold holdsLock s.harts j BLoc.fmbB h6 rfl
      · intro hall
        refine h7 ?_
        intro k
        by_cases hkj : k = j
        · subst hkj
          rw [hj]
          rfl
        · have hx := hall k
          simp only [updHart_ne _ _ hkj] at hx
          exact hx
      · intro k hk
        obtain ⟨hkj, hold⟩ := upd_eq_elsewhere s.harts j BLoc.fmbB hk (by simp)
        exact h8 k hold
      · intro k g hk
        obtain ⟨hkj, hold⟩ := upd_eq_elsewhere s.harts j BLoc.fmbB hk (by simp)
        exact h9 k g hold
      · intro k g hk
        obtain ⟨hkj, hold⟩ := upd_tail_disj s.harts j BLoc.fmbB
          (by simp) (by simp) (by simp) hk
        exact h10 k g hold
  | fmb j hj =>
      refine ⟨h1, h2, h3, h4, ?_, ?_, ?_, ?_, ?_, ?_⟩
      · intro h0 k
        by_cases hkj : k = j
        · subst hkj
          simp [updHart_self, holdsLock]
        · simp only [updHart_ne _ _ hkj]
          exact h5 h0 k
      · exact holders_uniq_upd_nonhold holdsLock s.harts j BLoc.doneB h6 rfl
      · intro hall
        refine h7 ?_
        intro k
        by_cases hkj : k = j
        · subst hkj
          rw [hj]
          rfl
        · have hx := hall k
          simp only [updHart_ne _ _ hkj] at hx
          exact hx
      · intro k hk
        obtain ⟨hkj, hold⟩ := upd_eq_elsewhere s.harts j BLoc.doneB hk (by simp)
        exact h8 k hold
      · intro k g hk
        obtain ⟨hkj, hold⟩ := upd_eq_elsewhere s.harts j BLoc.doneB hk (by simp)
        exact h9 k g hold
      · intro k g hk
        obtain ⟨hkj, hold⟩ := upd_tail_disj s.harts j BLoc.doneB
          (by simp) (by simp) (by simp) hk
        exact h10 k g hold

/-- Auxiliary: barInv holds in every reachable barrier state. -/
theorem barInv_reach (n total : Nat) (h1 : 1 ≤ total) (h2 : total < U32LIM)
    (s : BSys n) (hr : BReach (binit n total) s) : barInv s := by
  induction hr with
  | refl => exact barInv_init n total h1 h2
  | tail hr hs ih => exact barInv_step ih hs

/-- C3: for a barrier built by barrier_init with total >= 1, in every
    reachable state of the interleaved barrier_wait machine in which
    the barrier's internal lock is free (the states in which count is
    observable by the protocol, which only touches count under the
    lock), count lies in [0, total): the increment that would reach
    total is always followed by the reset before the lock is released,
    so count never reaches total at any observable point. -/
theorem barrier_count_lt_total (n total : Nat) (h1 : 1 ≤ total)
    (h2 : total < U32LIM) (s : BSys n) (hr : BReach (binit n total) s)
    (hfree : s.bar.lock.lock = 0) :
    s.bar.total = total ∧ s.bar.count < s.bar.total := by
  have hinv : barInv s := barInv_reach n total h1 h2 s hr
  obtain ⟨_, _, _, _, h5, _, h7, _, _, _⟩ := hinv
  exact ⟨btotal_reach hr, h7 (h5 hfree)⟩

/-- Witness for C3: the freshly initialised 2-hart, total = 4 barrier
    is reachable, its lock is free, and 0 < 4. -/
theorem barrier_count_lt_total_witness :
    (1 ≤ 4 ∧ 4 < U32LIM) ∧
    (binit 2 4).bar.total = 4 ∧ (binit 2 4).bar.count < (binit 2 4).bar.total :=
  ⟨⟨by norm_num, by norm_num [U32LIM]⟩,
    barrier_count_lt_total 2 4 (by norm_num) (by norm_num [U32LIM]) _
      Relation.ReflTransGen.refl rfl⟩

/-! ### C1: both counter tests end at exactly N -/

/-- Auxiliary: pulling one point out of a sum over all harts. -/
theorem sum_update_shift {n : Nat} (f : Fin n → Nat) (i : Fin n) (v : Nat) :
    (∑ j, Function.update f i v j) + f i = (∑ j, f j) + v := by
  rw [Finset.sum_update_of_mem (Finset.mem_univ i)]
  rw [← Finset.add_sum_erase Finset.univ f (Finset.mem_univ i)]
  rw [Finset.sdiff_singleton_eq_erase]
  ring

/-- Auxiliary: how the completed-store count changes when one hart
    moves. -/
theorem lwritten_upd {n : Nat} (hs : Fin n → LLoc) (i : Fin n) (a : LLoc) :
    lwritten (updHart hs i a) + lwrote (hs i) = lwritten hs + lwrote a := by
  have key : ∀ j, lwrote (updHart hs i a j) =
      Function.update (fun k => lwrote (hs k)) i (lwrote a) j := fun j =>
    Function.apply_update (fun _ v => lwrote v) hs i a j
  unfold lwritten
  rw [Finset.sum_congr rfl (fun j _ => key j)]
  exact sum_update_shift (fun k => lwrote (hs k)) i (lwrote a)

/-- Auxiliary: when every hart has finished, the completed-store count
    is the hart count. -/
theorem lwritten_all_done {n : Nat} (hs : Fin n → LLoc)
    (hall : ∀ i, hs i = .ldone) : lwritten hs = n := by
  unfold lwritten
  rw [Finset.sum_congr rfl (fun i _ => by rw [hall i])]
  simp [lwrote]

/-- Auxiliary: linv holds in the initial spinlock-test state. -/
theorem linv_init (n : Nat) : linv (linit n) := by
  refine ⟨Or.inl rfl, fun _ i => rfl, ?_, ?_, ?_⟩
  · intro i k hi hk
    simp [linit, lholds] at hi
  · show (0 : Nat) = lwritten (fun _ : Fin n => LLoc.lstart) % U32LIM
    have : lwritten (fun _ : Fin n => LLoc.lstart) = 0 := by
      simp [lwritten, lwrote]
    rw [this]
    exact (Nat.zero_mod _).symm
  · intro i v hi
    simp [linit] at hi

/-- Auxiliary: linv is preserved by every spinlock-test step. -/
theorem linv_step {n : Nat} {s t : LSys n} (hinv : linv s)
    (hstep : LStep s t) : linv t := by
  obtain ⟨h1, h2, h3, h4, h5⟩ := hinv
  cases hstep with
  | acq j hj hl =>
      have hnone : ∀ i, lholds (s.harts i) = false := h2 hl
      refine ⟨Or.inr rfl, ?_, ?_, ?_, ?_⟩
      · intro h0
        simp at h0
      · exact holders_uniq_fresh lholds s.harts j LLoc.lread hnone
      · show s.counter = lwritten (updHart s.harts j LLoc.lread) % U32LIM
        have hupd := lwritten_upd s.harts j LLoc.lread
        rw [hj] at hupd
        have heq : lwritten (updHart s.harts j LLoc.lread) = lwritten s.harts := by
          simpa [lwrote] using hupd
        rw [heq]
        exact h4
      · intro k v hk
        obtain ⟨hkj, hold⟩ := upd_eq_elsewhere s.harts j LLoc.lread hk (by simp)
        exact h5 k v hold
  | read j hj =>
      have hjh : lholds (s.harts j) = true := by rw [hj]; rfl
      refine ⟨h1, ?_, ?_, ?_, ?_⟩
      · intro h0 k
        have hx := h2 h0 j
        rw [hj] at hx
        simp [lholds] at hx
      · exact holders_uniq_upd lholds s.harts j (LLoc.lwrite s.counter) h3 hjh
      · show s.counter = lwritten (updHart s.harts j (LLoc.lwrite s.counter)) % U32LIM
        have hupd := lwritten_upd s.harts j (LLoc.lwrite s.counter)
        rw [hj] at hupd
        have heq : lwritten (updHart s.harts j (LLoc.lwrite s.counter)) =
            lwritten s.harts := by
          simpa [lwrote] using hupd
        rw [heq]
        exact h4
      · intro k v hk
        by_cases hkj : k = j
        · subst hkj
          simp only [updHart_self] at hk
          injection hk with hv
          exact hv.symm
        · simp only [updHart_ne _ _ hkj] at hk
          exact h5 k v hk
  | write j v hj =>
      have hjh : lholds (s.harts j) = true := by rw [hj]; rfl
      have hv : v = s.counter := h5 j v hj
      refine ⟨h1, ?_, ?_, ?_, ?_⟩
      · intro h0 k
        have hx := h2 h0 j
        rw [hj] at hx
        simp [lholds] at hx
      · exact holders_uniq_upd lholds s.harts j LLoc.lrel h3 hjh
      · show (v + 1) % U32LIM = lwritten (updHart s.harts j LLoc.lrel) % U32LIM
        have hupd := lwritten_upd s.harts j LLoc.lrel
        rw [hj] at hupd
        have heq : lwritten (updHart s.harts j LLoc.lrel) = lwritten s.harts + 1 := by
          simpa [lwrote] using hupd
        rw [heq, hv, h4]
        simp only [U32LIM]
        omega
      · intro k w hk
        by_cases hkj : k = j
        · subst hkj
          simp only [updHart_self] at hk
          simp at hk
        · simp only [updHart_ne _ _ hkj] at hk
          exact absurd (h3 k j (by rw [hk]; rfl) hjh) hkj
  | rel j hj =>
      have hjh : lholds (s.harts j) = true := by rw [hj]; rfl
      refine ⟨Or.inl rfl, ?_, ?_, ?_, ?_⟩
      · intro _ k
        by_cases hkj : k = j
        · subst hkj
          simp [updHart_self, lholds]
        · simp only [updHart_ne _ _ hkj]
          cases hx : lholds (s.harts k)
          · rfl
          · exact absurd (h3 k j hx hjh) hkj
      · exact holders_uniq_upd lholds s.harts j LLoc.ldone h3 hjh
      · show s.counter = lwritten (updHart s.harts j LLoc.ldone) % U32LIM
        have hupd := lwritten_upd s.harts j LLoc.ldone
        rw [hj] at hupd
        have heq : lwritten (updHart s.harts j LLoc.ldone) = lwritten s.harts := by
          simpa [lwrote] using hupd
        rw [heq]
        exact h4
      · intro k w hk
        obtain ⟨hkj, hold⟩ := upd_eq_elsewhere s.harts j LLoc.ldone hk (by simp)
        exact h5 k w hold

/-- Auxiliary: linv holds in every reachable spinlock-test state. -/
theorem linv_reach {n : Nat} (s : LSys n) (hr : LReach (linit n) s) :
    linv s := by
  induction hr with
  | refl => exact linv_init n
  | tail hr hs ih => exact linv_step ih hs

/-- Auxiliary: how the completed-increment count changes when one hart
    performs its amoadd. -/
theorem awritten_upd {n : Nat} (hs : Fin n → ALoc) (i : Fin n) (a : ALoc) :
    awritten (updHart hs i a) + awrote (hs i) = awritten hs + awrote a := by
  have key : ∀ j, awrote (updHart hs i a j) =
      Function.update (fun k => awrote (hs k)) i (awrote a) j := fun j =>
    Function.apply_update (fun _ v => awrote v) hs i a j
  unfold awritten
  rw [Finset.sum_congr rfl (fun j _ => key j)]
  exact sum_update_shift (fun k => awrote (hs k)) i (awrote a)

/-- Auxiliary: when every hart has incremented, the count is n. -/
theorem awritten_all_done {n : Nat} (hs : Fin n → ALoc)
    (hall : ∀ i, hs i = .adone) : awritten hs = n := by
  unfold awritten
  rw [Finset.sum_congr rfl (fun i _ => by rw [hall i])]
  simp [awrote]

/-- Auxiliary: ainv is preserved by every atomic-test step. -/
theorem ainv_step {n : Nat} {s t : ASys n} (hinv : ainv s)
    (hstep : AStep s t) : ainv t := by
  cases hstep with
  | addStep j hj =>
      show (s.counter + 1) % U32LIM = awritten (updHart s.harts j ALoc.adone) % U32LIM
      have hupd := awritten_upd s.harts j ALoc.adone
      rw [hj] at hupd
      have heq : awritten (updHart s.harts j ALoc.adone) = awritten s.harts + 1 := by
        simpa [awrote] using hupd
      rw [heq, hinv]
      simp only [U32LIM]
      omega

/-- Auxiliary: ainv holds in every reachable atomic-test state. -/
theorem ainv_reach {n : Nat} (t : ASys n) (hr : AReach (ainit n) t) :
    ainv t := by
  induction hr with
  | refl =>
      show (0 : Nat) = awritten (fun _ : Fin n => ALoc.astart) % U32LIM
      have : awritten (fun _ : Fin n => ALoc.astart) = 0 := by
        simp [awritten, awrote]
      rw [this]
      exact (Nat.zero_mod _).symm
  | tail hr hs ih => exact ainv_step ih hs

/-- C1: for every hart count n from 1 to 8, in any interleaving of the
    n harts each performing the spinlock test body "spin_lock;
    smp_lock_counter++; spin_unlock" exactly once, once all have
    finished the shared lock counter equals exactly n; likewise any
    interleaving of one atomic_add_u32(&smp_atomic_counter, 1) per hart
    ends with the atomic counter equal to exactly n. -/
theorem smp_counter_tests_final_value (n : Nat) (hn1 : 1 ≤ n) (hn8 : n ≤ 8) :
    (∀ s : LSys n, LReach (linit n) s → (∀ i, s.harts i = .ldone) →
      s.counter = n) ∧
    (∀ t : ASys n, AReach (ainit n) t → (∀ i, t.harts i = .adone) →
      t.counter = n) := by
  constructor
  · intro s hr hall
    obtain ⟨_, _, _, h4, _⟩ := linv_reach s hr
    rw [h4, lwritten_all_done s.harts hall]
    exact Nat.mod_eq_of_lt (lt_of_le_of_lt hn8 (by norm_num [U32LIM]))
  · intro t hr hall
    have h := ainv_reach t hr
    rw [h, awritten_all_done t.harts hall]
    exact Nat.mod_eq_of_lt (lt_of_le_of_lt hn8 (by norm_num [U32LIM]))

/-- Witness for C1: with n = 1 the full runs of both tests are
    reachable and end with both counters equal to 1. -/
theorem smp_counter_tests_final_value_witness :
    ∃ (s : LSys 1) (t : ASys 1),
      LReach (linit 1) s ∧ (∀ i, s.harts i = .ldone) ∧ s.counter = 1 ∧
      AReach (ainit 1) t ∧ (∀ i, t.harts i = .adone) ∧ t.counter = 1 := by
  have l0 : LReach (linit 1) (linit 1) := Relation.ReflTransGen.refl
  have l1 := Relation.ReflTransGen.tail l0 (LStep.acq (linit 1) 0 rfl rfl)
  have l2 := Relation.ReflTransGen.tail l1 (LStep.read _ 0 (by simp [updHart]))
  have l3 := Relation.ReflTransGen.tail l2
    (LStep.write _ 0 0 (by simp [updHart, linit]))
  have l4 := Relation.ReflTransGen.tail l3 (LStep.rel _ 0 (by simp [updHart]))
  have a0 : AReach (ainit 1) (ainit 1) := Relation.ReflTransGen.refl
  have a1 := Relation.ReflTransGen.tail a0 (AStep.addStep (ainit 1) 0 rfl)
  refine ⟨_, _, l4, fun i => ?_, ?_, a1, fun i => ?_, ?_⟩
  · have hi0 : i = 0 := Fin.eq_zero i
    subst hi0
    simp [updHart]
  · exact (smp_counter_tests_final_value 1 (by norm_num) (by norm_num)).1 _ l4
      (fun i => by
        have hi0 : i = 0 := Fin.eq_zero i
        subst hi0
        simp [updHart])
  · have hi0 : i = 0 := Fin.eq_zero i
    subst hi0
    simp [updHart]
  · exact (smp_counter_tests_final_value 1 (by norm_num) (by norm_num)).2 _ a1
      (fun i => by
        have hi0 : i = 0 := Fin.eq_zero i
        subst hi0
        simp [updHart])
